import Mathlib

/-!
Verification development for the Neuromorphic-Simulator repository.

The repository ships two concatenated generations of its engine:
* `src/src/lib/Neuron.ts` holds a simple decay-based `Neuron` class
  (namespace `NeuronTS` below);
* `src/src/components/NetworkGraph.tsx` ends with the config-based LIF
  `Neuron` class used by the first `Network` class of
  `src/src/lib/Network.ts` (namespaces `GraphTS` and `NetTS` below).

JavaScript numbers are modelled as rationals (`ℚ`); `Math.exp` is passed
around as an explicit function parameter `e : ℚ → ℚ` so that every
definition stays executable, and none of the proved properties depends on
the values that `e` takes.  The degenerate divisions of
`getNetworkStats` are modelled with an explicit JS-number type carrying
`NaN`/`Infinity` (namespace `JS`); the sign of IEEE zero is not modelled,
which none of the stated properties depends on.
-/

namespace NSim

/-- `arr.push(x)` followed by `if (arr.length > bound) arr.shift()`:
the bounded-history idiom used throughout the source. -/
def pushBounded (l : List ℚ) (x : ℚ) (bound : ℕ) : List ℚ :=
  let l2 := l ++ [x]
  if bound < l2.length then l2.tail else l2

/-- JavaScript `arr.slice(-k)`: the last `k` elements (all of them when
`arr.length ≤ k`). -/
def lastN (l : List ℚ) (k : ℕ) : List ℚ := l.drop (l.length - k)

namespace NeuronTS

/-- The `Neuron` class of `src/src/lib/Neuron.ts`.  `maxHistoryLength`
is the constant 100. -/
structure Neuron where
  membranePotential : ℚ
  threshold : ℚ
  resetPotential : ℚ
  decay : ℚ
  refractoryPeriod : ℚ
  fired : Bool
  lastSpikeTime : Option ℚ
  refractoryUntil : ℚ
  totalSpikes : ℕ
  spikeHistory : List ℚ
deriving DecidableEq

/-- The constructor: `membranePotential = 0`, `resetPotential = 0.0`,
no firing state, empty history. -/
def mkNeuron (threshold decay refractoryPeriod : ℚ) : Neuron :=
  { membranePotential := 0
    threshold := threshold
    resetPotential := 0
    decay := decay
    refractoryPeriod := refractoryPeriod
    fired := false
    lastSpikeTime := none
    refractoryUntil := 0
    totalSpikes := 0
    spikeHistory := [] }

/-- `Neuron.step(inputCurrent, time)` of `Neuron.ts`: clear `fired`;
early-return while refractory; decay and integrate; spike and reset on
reaching threshold; finally clamp the potential from below at
`resetPotential`. -/
def step (n : Neuron) (inputCurrent time : ℚ) : Neuron × Bool :=
  let n0 : Neuron := { n with fired := false }
  if time < n0.refractoryUntil then (n0, false)
  else
    let v1 := n0.membranePotential * n0.decay + inputCurrent
    let n1 : Neuron :=
      if n0.threshold ≤ v1 then
        { n0 with membranePotential := n0.resetPotential
                  fired := true
                  lastSpikeTime := some time
                  refractoryUntil := time + n0.refractoryPeriod
                  totalSpikes := n0.totalSpikes + 1
                  spikeHistory := pushBounded n0.spikeHistory time 100 }
      else { n0 with membranePotential := v1 }
    let n2 : Neuron :=
      if n1.membranePotential < n1.resetPotential then
        { n1 with membranePotential := n1.resetPotential }
      else n1
    (n2, n2.fired)

/-- Folding a list of `(inputCurrent, time)` calls through `step`. -/
def run (n : Neuron) : List (ℚ × ℚ) → Neuron
  | [] => n
  | c :: cs => run (step n c.1 c.2).1 cs

/-- The refractory-hold invariant: after the last call at `tLast`,
either the potential sits at `resetPotential` or the refractory window
has already closed. -/
def refractoryHeld (n : Neuron) (tLast : ℚ) : Prop :=
  n.membranePotential = n.resetPotential ∨ n.refractoryUntil ≤ tLast

end NeuronTS

namespace GraphTS

/-- `NeuronConfig` of `src/src/components/NetworkGraph.tsx`. -/
structure NeuronConfig where
  threshold : ℚ
  restingPotential : ℚ
  resetPotential : ℚ
  membraneTau : ℚ
  refractoryPeriod : ℚ
  capacitance : ℚ
  resistance : ℚ
deriving DecidableEq

/-- The constructor defaults of the config-based `Neuron`. -/
def defaultConfig : NeuronConfig :=
  { threshold := -50
    restingPotential := -70
    resetPotential := -70
    membraneTau := 20
    refractoryPeriod := 2
    capacitance := 100
    resistance := 200 }

/-- The config-based LIF `Neuron` class at the end of
`NetworkGraph.tsx`.  `maxHistoryLength` is the constant 200. -/
structure Neuron where
  membranePotential : ℚ
  config : NeuronConfig
  fired : Bool
  lastSpikeTime : Option ℚ
  refractoryUntil : ℚ
  totalSpikes : ℕ
  spikeHistory : List ℚ
  voltageHistory : List ℚ
  adaptationCurrent : ℚ
  adaptationTimeConstant : ℚ
  adaptationIncrement : ℚ
deriving DecidableEq

/-- The constructor: membrane potential starts at the resting
potential; the adaptation constants default to 100 and 0.1. -/
def mkNeuron (config : NeuronConfig) : Neuron :=
  { membranePotential := config.restingPotential
    config := config
    fired := false
    lastSpikeTime := none
    refractoryUntil := 0
    totalSpikes := 0
    spikeHistory := []
    voltageHistory := []
    adaptationCurrent := 0
    adaptationTimeConstant := 100
    adaptationIncrement := 0.1 }

/-- `Neuron.step(inputCurrent, deltaTime, currentTime)` of the
config-based class: clear `fired`; during refractoriness pin the
potential at `resetPotential` and return false; otherwise forward-Euler
integrate, decay the adaptation current by `e(−Δt/τ_adapt)`, record the
voltage, and spike when the threshold is reached. -/
def step (e : ℚ → ℚ) (n : Neuron) (inputCurrent deltaTime currentTime : ℚ) :
    Neuron × Bool :=
  let n0 : Neuron := { n with fired := false }
  if currentTime < n0.refractoryUntil then
    ({ n0 with membranePotential := n0.config.resetPotential }, false)
  else
    let totalCurrent := inputCurrent - n0.adaptationCurrent
    let leak := (n0.config.restingPotential - n0.membranePotential) / n0.config.membraneTau
    let injection := totalCurrent / (n0.config.capacitance * n0.config.resistance)
    let v := n0.membranePotential + (leak + injection) * deltaTime
    let ad := n0.adaptationCurrent * e (-deltaTime / n0.adaptationTimeConstant)
    let vh := pushBounded n0.voltageHistory v 200
    if n0.config.threshold ≤ v then
      ({ n0 with membranePotential := n0.config.resetPotential
                 fired := true
                 lastSpikeTime := some currentTime
                 refractoryUntil := currentTime + n0.config.refractoryPeriod
                 adaptationCurrent := ad + n0.adaptationIncrement
                 totalSpikes := n0.totalSpikes + 1
                 spikeHistory := pushBounded n0.spikeHistory currentTime 200
                 voltageHistory := vh }, true)
    else
      ({ n0 with membranePotential := v
                 adaptationCurrent := ad
                 voltageHistory := vh }, false)

/-- `Neuron.reset()` of the config-based class. -/
def reset (n : Neuron) : Neuron :=
  { n with membranePotential := n.config.restingPotential
           fired := false
           lastSpikeTime := none
           refractoryUntil := 0
           totalSpikes := 0
           spikeHistory := []
           voltageHistory := []
           adaptationCurrent := 0 }

/-- `Neuron.getInstantaneousFiringRate()`: 0 below two spikes,
otherwise 1000 over the mean inter-spike interval of the last up-to-10
recorded spike times (guarded to 0 when that mean is not positive). -/
def getInstantaneousFiringRate (n : Neuron) : ℚ :=
  if n.spikeHistory.length < 2 then 0
  else
    let recent := lastN n.spikeHistory 10
    if recent.length < 2 then 0
    else
      let intervals := List.zipWith (fun a b => a - b) recent.tail recent
      let avgInterval := intervals.sum / (intervals.length : ℚ)
      if 0 < avgInterval then 1000 / avgInterval else 0

/-- The mean inter-spike interval of a run of spike times, as the spec
phrases the firing-rate computation. -/
def meanISI (r : List ℚ) : ℚ :=
  (List.zipWith (fun a b => a - b) r.tail r).sum /
    ((List.zipWith (fun a b => a - b) r.tail r).length : ℚ)

end GraphTS

namespace NetTS

/-- The `plasticity` sub-record of `SynapseConfig` in
`src/src/lib/Network.ts` (first class). -/
structure Plasticity where
  enabled : Bool
  aPlus : ℚ
  aMinus : ℚ
  tauPlus : ℚ
  tauMinus : ℚ
deriving DecidableEq

/-- `addSynapse`'s plasticity defaults. -/
def defaultPlasticity : Plasticity :=
  { enabled := true, aPlus := 0.01, aMinus := 0.0105, tauPlus := 20, tauMinus := 20 }

/-- The `Synapse` record of the first `Network` class.  The source
fields `from`/`to` are rendered `fromIdx`/`toIdx` (`from` is a Lean
keyword). -/
structure Synapse where
  fromIdx : ℕ
  toIdx : ℕ
  weight : ℚ
  delay : ℚ
  plasticity : Plasticity
  id : String
  weightHistory : List ℚ
  lastUpdate : ℚ
deriving DecidableEq

/-- An in-flight `SpikeEvent`. -/
structure SpikeEvent where
  targetNeuron : ℕ
  sourceNeuron : ℕ
  weight : ℚ
  arrivalTime : ℚ
  synapseId : String
deriving DecidableEq

/-- The first `Network` class of `src/src/lib/Network.ts`. -/
structure Network where
  neurons : List GraphTS.Neuron
  synapses : List Synapse
  spikeQueue : List SpikeEvent
  currentTime : ℚ
  deltaTime : ℚ
  globalPlasticityEnabled : Bool
  homeostasisEnabled : Bool
  targetFiringRate : ℚ
  networkActivity : List ℚ
  synchronyIndex : ℚ
deriving DecidableEq

/-- The `Network` constructor with its field initialisers. -/
def mkNetwork : Network :=
  { neurons := []
    synapses := []
    spikeQueue := []
    currentTime := 0
    deltaTime := 0.1
    globalPlasticityEnabled := false
    homeostasisEnabled := true
    targetFiringRate := 10
    networkActivity := []
    synchronyIndex := 0 }

/-- `Network.addNeuron(config)`. -/
def addNeuron (net : Network) (config : GraphTS.NeuronConfig) : Network :=
  { net with neurons := net.neurons ++ [GraphTS.mkNeuron config] }

/-- `Network.addSynapse(config)`: the generated id (which the source
draws from `Date.now()` and `Math.random()`) is taken as a parameter;
`weightHistory` starts as `[weight]` and `lastUpdate` as 0. -/
def addSynapse (net : Network) (fromIdx toIdx : ℕ) (weight delay : ℚ)
    (plasticity : Plasticity) (id : String) : Network :=
  { net with synapses := net.synapses ++
      [{ fromIdx := fromIdx, toIdx := toIdx, weight := weight, delay := delay
         plasticity := plasticity, id := id
         weightHistory := [weight], lastUpdate := 0 }] }

/-- `Network.applySTDP(synapse, preSpikes, postSpikes)`: skip unless
both the synapse's and the network's plasticity flags are set; sum the
pairwise STDP terms over the spikes of the trailing 100 ms window
(accumulated exactly as the nested `forEach` loops do); clamp the new
weight to `[0, 2]`; record history and `lastUpdate` only when the
weight moved by more than 0.001. -/
def applySTDP (e : ℚ → ℚ) (globalPlasticityEnabled : Bool) (currentTime : ℚ)
    (synapse : Synapse) (preSpikes postSpikes : List ℚ) : Synapse :=
  if !synapse.plasticity.enabled || !globalPlasticityEnabled then synapse
  else
    let recentPreSpikes := preSpikes.filter (fun t => decide (currentTime - 100 < t))
    let recentPostSpikes := postSpikes.filter (fun t => decide (currentTime - 100 < t))
    let weightChange := recentPreSpikes.foldl (fun acc tPre =>
      recentPostSpikes.foldl (fun acc2 tPost =>
        let dt := tPost - tPre
        if 0 < dt then
          acc2 + synapse.plasticity.aPlus * e (-dt / synapse.plasticity.tauPlus)
        else if dt < 0 then
          acc2 - synapse.plasticity.aMinus * e (dt / synapse.plasticity.tauMinus)
        else acc2) acc) 0
    let oldWeight := synapse.weight
    let newWeight := max 0 (min 2 (synapse.weight + weightChange))
    if 0.001 < |newWeight - oldWeight| then
      { synapse with weight := newWeight
                     weightHistory := pushBounded synapse.weightHistory newWeight 100
                     lastUpdate := currentTime }
    else
      { synapse with weight := newWeight }

/-- `Network.applyHomeostasis()`: when enabled, nudge each neuron's
threshold by `0.001 · (targetFiringRate − rate)` if the rate error
exceeds 1 Hz, clamping the result into `[−60, −40]`. -/
def applyHomeostasis (net : Network) : Network :=
  if !net.homeostasisEnabled then net
  else
    { net with neurons := net.neurons.map (fun neuron =>
        let currentRate := GraphTS.getInstantaneousFiringRate neuron
        let rateDiff := net.targetFiringRate - currentRate
        if 1 < |rateDiff| then
          { neuron with config := { neuron.config with
              threshold := max (-60) (min (-40) (neuron.config.threshold + rateDiff * 0.001)) } }
        else neuron) }

/-- Mutate the first synapse whose `id` matches (the effect of
`this.synapses.find(s => s.id === id)` followed by in-place mutation;
identity when no synapse matches). -/
def updateFirst : List Synapse → String → (Synapse → Synapse) → List Synapse
  | [], _, _ => []
  | s :: rest, sid, f =>
    if s.id = sid then f s :: rest else s :: updateFirst rest sid f

/-- The spike history of `neurons[i]` (empty when `i` is out of range;
the source would throw there, and every theorem below stays in range). -/
def histOf (neurons : List GraphTS.Neuron) (i : ℕ) : List ℚ :=
  match neurons[i]? with
  | some n => n.spikeHistory
  | none => []

/-- The events `Network.step` delivers this step: those with
`arrivalTime ≤ currentTime` after the `currentTime += deltaTime`
advance.  The source walks the queue once, splitting it into delivered
and retained events in order; this is that split. -/
def stepDelivered (net : Network) : List SpikeEvent :=
  net.spikeQueue.filter (fun ev => decide (ev.arrivalTime ≤ net.currentTime + net.deltaTime))

/-- The events `Network.step` retains in the queue. -/
def stepRemaining (net : Network) : List SpikeEvent :=
  net.spikeQueue.filter (fun ev => decide (¬ ev.arrivalTime ≤ net.currentTime + net.deltaTime))

/-- The per-neuron input accumulator built while draining the queue:
`inputs[event.targetNeuron] += event.weight` for each delivered event,
starting from a zero vector of length `neurons.length`. -/
def stepInputs (net : Network) : List ℚ :=
  (stepDelivered net).foldl
    (fun inputs ev => inputs.set ev.targetNeuron (inputs.getD ev.targetNeuron 0 + ev.weight))
    (List.replicate net.neurons.length 0)

/-- The synapse list after the drain loop ran STDP once per delivered
event (looking the synapse up by `id`, reading the then-current spike
histories of the event's endpoints — neurons are not advanced until
after the drain). -/
def stepSynapses (e : ℚ → ℚ) (net : Network) : List Synapse :=
  (stepDelivered net).foldl
    (fun syns ev => updateFirst syns ev.synapseId
      (fun syn => applySTDP e net.globalPlasticityEnabled (net.currentTime + net.deltaTime) syn
        (histOf net.neurons ev.sourceNeuron) (histOf net.neurons ev.targetNeuron)))
    net.synapses

/-- The neuron-update loop of `Network.step`: advance neuron `i` with
`inputs[i]`; on a fire, emit one event per outgoing synapse
(`arrivalTime = currentTime + synapse.delay`, carrying the synapse's
current weight) and count the fire. -/
def neuronLoop (e : ℚ → ℚ) (dt t : ℚ) (synapses : List Synapse) (inputs : List ℚ) :
    List GraphTS.Neuron → ℕ → List GraphTS.Neuron × List SpikeEvent × ℕ
  | [], _ => ([], [], 0)
  | n :: restNs, i =>
    let r := GraphTS.step e n (inputs.getD i 0) dt t
    let rest := neuronLoop e dt t synapses inputs restNs (i + 1)
    if r.2 then
      (r.1 :: rest.1,
       ((synapses.filter (fun s => decide (s.fromIdx = i))).map (fun syn =>
         { targetNeuron := syn.toIdx, sourceNeuron := i, weight := syn.weight,
           arrivalTime := t + syn.delay, synapseId := syn.id })) ++ rest.2.1,
       rest.2.2 + 1)
    else
      (r.1 :: rest.1, rest.2.1, rest.2.2)

/-- The neuron-loop result for one `Network.step`, run against the
post-drain synapses and the drained inputs. -/
def stepLoop (e : ℚ → ℚ) (net : Network) : List GraphTS.Neuron × List SpikeEvent × ℕ :=
  neuronLoop e net.deltaTime (net.currentTime + net.deltaTime) (stepSynapses e net)
    (stepInputs net) net.neurons 0

/-- The events `Network.step` pushes onto the queue. -/
def stepNewEvents (e : ℚ → ℚ) (net : Network) : List SpikeEvent := (stepLoop e net).2.1

/-- `Network.updateSynchronyIndex()`. -/
def updateSynchronyIndex (net : Network) : Network :=
  if net.networkActivity.length < 10 then net
  else
    let recent := lastN net.networkActivity 10
    let mean := recent.sum / (recent.length : ℚ)
    let variance := (recent.map (fun val => (val - mean) ^ 2)).sum / (recent.length : ℚ)
    { net with synchronyIndex := variance / (mean + 0.001) }

/-- `Network.step()`: advance time; drain due events (accumulating
inputs and running STDP); advance every neuron, enqueueing delayed
events for the fired ones; record activity; refresh the synchrony
index; and run homeostasis when `⌊currentTime⌋ % 100 == 0`. -/
def step (e : ℚ → ℚ) (net : Network) : Network :=
  let t := net.currentTime + net.deltaTime
  let loopR := stepLoop e net
  let net1 : Network := { net with
    currentTime := t
    spikeQueue := stepRemaining net ++ loopR.2.1
    synapses := stepSynapses e net
    neurons := loopR.1
    networkActivity := pushBounded net.networkActivity (loopR.2.2 : ℚ) 1000 }
  let net2 := updateSynchronyIndex net1
  if ⌊t⌋ % 100 = 0 then applyHomeostasis net2 else net2

/-- `k` invocations of `Network.step()`. -/
def stepIter (e : ℚ → ℚ) : ℕ → Network → Network
  | 0, net => net
  | k + 1, net => step e (stepIter e k net)

/-- `Network.reset()`: zero the clock, reset every neuron, empty the
queue and activity history, and restore each synapse with a nonempty
history to `weightHistory[0]`, truncating its history to that single
entry. -/
def reset (net : Network) : Network :=
  { net with currentTime := 0
             neurons := net.neurons.map GraphTS.reset
             spikeQueue := []
             networkActivity := []
             synchronyIndex := 0
             synapses := net.synapses.map (fun synapse =>
               match synapse.weightHistory with
               | [] => synapse
               | w :: _ => { synapse with weight := w, weightHistory := [w] }) }

/-- The pairwise STDP weight change exactly as §4.4.1 of the spec
states it: over all pre/post pairs of the trailing 100 ms window,
`+aPlus·e(−Δt/tauPlus)` for `Δt > 0`, `−aMinus·e(Δt/tauMinus)` for
`Δt < 0`, nothing for `Δt = 0`. -/
def stdpDeltaSpec (e : ℚ → ℚ) (p : Plasticity) (currentTime : ℚ)
    (preSpikes postSpikes : List ℚ) : ℚ :=
  ((preSpikes.filter (fun t => decide (currentTime - 100 < t))).map (fun tPre =>
    ((postSpikes.filter (fun t => decide (currentTime - 100 < t))).map (fun tPost =>
      if 0 < tPost - tPre then p.aPlus * e (-(tPost - tPre) / p.tauPlus)
      else if tPost - tPre < 0 then -(p.aMinus * e ((tPost - tPre) / p.tauMinus))
      else 0)).sum)).sum

/-- An abstract operation on a `Network`: one of the mutators the
claims quantify reachability over. -/
inductive NetOp where
  | step : NetOp
  | reset : NetOp
  | addNeuron (config : GraphTS.NeuronConfig) : NetOp
  | addSynapse (fromIdx toIdx : ℕ) (weight delay : ℚ)
      (plasticity : Plasticity) (id : String) : NetOp

/-- Interpret one operation (`step` is run with the ambient `e`). -/
def applyOp (e : ℚ → ℚ) (net : Network) : NetOp → Network
  | NetOp.step => step e net
  | NetOp.reset => reset net
  | NetOp.addNeuron config => addNeuron net config
  | NetOp.addSynapse f t w d p i => addSynapse net f t w d p i

/-- Interpret a list of operations, left to right. -/
def runOps (e : ℚ → ℚ) (net : Network) : List NetOp → Network
  | [] => net
  | op :: ops => runOps e (applyOp e net op) ops

/-- A synapse added by `addSynapse` is "created in bounds" when its
initial weight lies in `[0, 2]`. -/
def opWeightOK : NetOp → Prop
  | NetOp.addSynapse _ _ w _ _ _ => 0 ≤ w ∧ w ≤ 2
  | _ => True

/-- Every synapse weight, and every recorded history entry, lies in
`[0, 2]`. -/
def SynBounds (syn : Synapse) : Prop :=
  (0 ≤ syn.weight ∧ syn.weight ≤ 2) ∧ ∀ w ∈ syn.weightHistory, 0 ≤ w ∧ w ≤ 2

/-- The network-wide weight-bound invariant of §8.1 of the spec. -/
def WeightInv (net : Network) : Prop :=
  ∀ syn ∈ net.synapses, SynBounds syn

/-- A concrete enabled synapse used by witnesses. -/
def synW : Synapse :=
  { fromIdx := 0, toIdx := 1, weight := 1, delay := 1,
    plasticity := defaultPlasticity, id := "s0", weightHistory := [1],
    lastUpdate := 0 }

/-- A fixed stand-in for `Math.exp` used by witnesses (the proved
properties hold for every such function). -/
def expOne : ℚ → ℚ := fun _ => 1

/-- A concrete in-flight event used by witnesses. -/
def evW : SpikeEvent :=
  { targetNeuron := 0, sourceNeuron := 0, weight := 1, arrivalTime := 2,
    synapseId := "x" }

/-- A concrete one-neuron network state with `evW` queued, used by
witnesses. -/
def netW : Network :=
  { neurons := [GraphTS.mkNeuron GraphTS.defaultConfig]
    synapses := []
    spikeQueue := [evW]
    currentTime := 0
    deltaTime := 1
    globalPlasticityEnabled := false
    homeostasisEnabled := false
    targetFiringRate := 10
    networkActivity := []
    synchronyIndex := 0 }

namespace JS

/-- The fragment of IEEE JavaScript numbers the degenerate statistics
paths produce.  The sign of zero is not modelled (it influences only
the sign of an infinity, which no claim mentions). -/
inductive JSNum where
  | num (q : ℚ)
  | nan : JSNum
  | inf : JSNum
  | ninf : JSNum
deriving DecidableEq

/-- JavaScript division.  Finite values follow exact division except
over a zero denominator, where `0/0 = NaN` and `x/0 = ±Infinity`; the
remaining (never-exercised) cases propagate `NaN`. -/
def jsDiv : JSNum → JSNum → JSNum
  | JSNum.num a, JSNum.num b =>
    if b = 0 then
      (if a = 0 then JSNum.nan else if 0 < a then JSNum.inf else JSNum.ninf)
    else JSNum.num (a / b)
  | _, _ => JSNum.nan

end JS

/-- The record returned by `Network.getNetworkStats()` (first class),
with the division results carried as JS numbers. -/
structure NetworkStats where
  totalSpikes : ℕ
  avgFiringRate : JS.JSNum
  totalSynapses : ℕ
  avgWeight : JS.JSNum
  connectivity : JS.JSNum
  activeNeurons : ℕ
  synchronyIndex : ℚ
  currentTime : ℚ
deriving DecidableEq

/-- `Network.getNetworkStats()`: sums are exact (a faithful rendering
of the reachable degenerate paths, where the summed lists are empty);
each division is JS division, so a zero denominator yields `NaN` or an
infinity rather than an error. -/
def getNetworkStats (net : Network) : NetworkStats :=
  { totalSpikes := (net.neurons.map GraphTS.Neuron.totalSpikes).sum
    avgFiringRate := JS.jsDiv
      (JS.JSNum.num (net.neurons.map GraphTS.getInstantaneousFiringRate).sum)
      (JS.JSNum.num (net.neurons.length : ℚ))
    totalSynapses := net.synapses.length
    avgWeight := JS.jsDiv
      (JS.JSNum.num (net.synapses.map Synapse.weight).sum)
      (JS.JSNum.num (net.synapses.length : ℚ))
    connectivity := JS.jsDiv
      (JS.JSNum.num (net.synapses.length : ℚ))
      (JS.JSNum.num ((net.neurons.length : ℚ) * ((net.neurons.length : ℚ) - 1)))
    activeNeurons := (net.neurons.filter
      (fun n => decide ((0.1 : ℚ) < GraphTS.getInstantaneousFiringRate n))).length
    synchronyIndex := net.synchronyIndex
    currentTime := net.currentTime }

end NetTS

namespace NeuronTS

/-- `step` never changes `resetPotential`. -/
lemma step_resetPotential (n : Neuron) (i t : ℚ) :
    (step n i t).1.resetPotential = n.resetPotential := by
  unfold step
  dsimp only
  split_ifs <;> rfl

/-- `step` keeps the membrane potential at or above `resetPotential`
(the terminal clamp of the non-refractory path, state preservation in
the refractory path). -/
lemma step_V_ge (n : Neuron) (i t : ℚ) (h : n.resetPotential ≤ n.membranePotential) :
    (step n i t).1.resetPotential ≤ (step n i t).1.membranePotential := by
  unfold step
  dsimp only
  split_ifs with h1 h2 h3 h3 <;> simp_all

/-- When `step` reports a fire, the resulting membrane potential is the
reset potential. -/
lemma step_fired_V (n : Neuron) (i t : ℚ) (h : (step n i t).2 = true) :
    (step n i t).1.membranePotential = (step n i t).1.resetPotential := by
  unfold step at h ⊢
  dsimp only at h ⊢
  split_ifs at h ⊢ <;> simp_all

/-- The lower bound persists through any run of calls. -/
lemma run_V_ge (calls : List (ℚ × ℚ)) :
    ∀ n : Neuron, n.resetPotential ≤ n.membranePotential →
      (run n calls).resetPotential ≤ (run n calls).membranePotential := by
  induction calls with
  | nil => intro n h; exact h
  | cons c cs ih =>
    intro n h
    exact ih _ (step_V_ge n c.1 c.2 h)

/-- C9: for every `Neuron` of `Neuron.ts` and every sequence of `step`
calls from construction, the membrane potential never falls below
`resetPotential`, and a call that returns true leaves the membrane
potential exactly at `resetPotential`. -/
theorem neuron_potential_bounds (th dec rp : ℚ) (calls : List (ℚ × ℚ)) (i t : ℚ) :
    (run (mkNeuron th dec rp) calls).resetPotential ≤
      (run (mkNeuron th dec rp) calls).membranePotential
    ∧ ((step (run (mkNeuron th dec rp) calls) i t).2 = true →
        (step (run (mkNeuron th dec rp) calls) i t).1.membranePotential =
          (step (run (mkNeuron th dec rp) calls) i t).1.resetPotential) := by
  constructor
  · exact run_V_ge calls _ (by simp [mkNeuron])
  · exact step_fired_V _ i t

/-- Witness for C9 at a concrete firing input. -/
theorem neuron_potential_bounds_witness :
    (step (run (mkNeuron 1 1 2) []) 5 0).2 = true
    ∧ (step (run (mkNeuron 1 1 2) []) 5 0).1.membranePotential =
        (step (run (mkNeuron 1 1 2) []) 5 0).1.resetPotential := by
  have hf : (step (run (mkNeuron 1 1 2) []) 5 0).2 = true := by
    norm_num [run, step, mkNeuron]
  exact ⟨hf, (neuron_potential_bounds 1 1 2 [] 5 0).2 hf⟩

lemma refractoryHeld_mono {n : Neuron} {a b : ℚ} (hab : a ≤ b)
    (h : refractoryHeld n a) : refractoryHeld n b :=
  h.imp id (fun h2 => le_trans h2 hab)

/-- One call preserves the refractory-hold invariant when time does not
run backwards. -/
lemma step_refractoryHeld (n : Neuron) (i t tLast : ℚ)
    (h : refractoryHeld n tLast) (hle : tLast ≤ t) :
    refractoryHeld (step n i t).1 t := by
  unfold step
  dsimp only
  split_ifs with h1 h2 h3 h3
  · rcases h with h | h
    · exact Or.inl h
    · exact absurd h1 (not_lt.mpr (le_trans h hle))
  · exact Or.inl (by simp)
  · exact Or.inl (by simp)
  · exact Or.inl (by simp)
  · exact Or.inr (by simpa using not_lt.mp h1)

lemma headD_append_singleton (xs : List ℚ) (t : ℚ) :
    (xs ++ [t]).head? = some (xs.headD t) := by
  cases xs <;> rfl

/-- The refractory-hold invariant survives a whole run whose call times
are nondecreasing and end no later than `t`. -/
lemma run_refractoryHeld (calls : List (ℚ × ℚ)) :
    ∀ (n : Neuron) (t : ℚ),
      refractoryHeld n ((calls.map Prod.snd).headD t) →
      List.Chain' (· ≤ ·) (calls.map Prod.snd ++ [t]) →
      refractoryHeld (run n calls) t := by
  induction calls with
  | nil => intro n t h _; exact h
  | cons c cs ih =>
    intro n t h hch
    simp only [List.map_cons, List.cons_append, List.chain'_cons'] at hch
    obtain ⟨hhead, hch2⟩ := hch
    have hle : c.2 ≤ (cs.map Prod.snd).headD t := by
      have := hhead ((cs.map Prod.snd).headD t)
      rw [headD_append_singleton] at this
      exact this rfl
    have h0 : refractoryHeld n c.2 := by simpa using h
    have h1 : refractoryHeld (step n c.1 c.2).1 c.2 :=
      step_refractoryHeld n c.1 c.2 c.2 h0 le_rfl
    exact ih _ t (refractoryHeld_mono hle h1) hch2

/-- C2: a `Neuron.step(i, t)` call made during the refractory period
(`t < refractoryUntil`), after any nondecreasing-time call history,
returns false, leaves `totalSpikes` and `spikeHistory` untouched, and
finds and leaves the membrane potential at `resetPotential`. -/
theorem neuron_refractory_gate (th dec rp : ℚ) (calls : List (ℚ × ℚ)) (i t : ℚ)
    (hmono : List.Chain' (· ≤ ·) (calls.map Prod.snd ++ [t]))
    (href : t < (run (mkNeuron th dec rp) calls).refractoryUntil) :
    (step (run (mkNeuron th dec rp) calls) i t).2 = false
    ∧ (run (mkNeuron th dec rp) calls).membranePotential =
        (run (mkNeuron th dec rp) calls).resetPotential
    ∧ (step (run (mkNeuron th dec rp) calls) i t).1.membranePotential =
        (run (mkNeuron th dec rp) calls).resetPotential
    ∧ (step (run (mkNeuron th dec rp) calls) i t).1.totalSpikes =
        (run (mkNeuron th dec rp) calls).totalSpikes
    ∧ (step (run (mkNeuron th dec rp) calls) i t).1.spikeHistory =
        (run (mkNeuron th dec rp) calls).spikeHistory := by
  have hheld : refractoryHeld (run (mkNeuron th dec rp) calls) t := by
    apply run_refractoryHeld calls _ t _ hmono
    exact Or.inl (by simp [mkNeuron])
  have hV : (run (mkNeuron th dec rp) calls).membranePotential =
      (run (mkNeuron th dec rp) calls).resetPotential := by
    rcases hheld with h | h
    · exact h
    · exact absurd href (not_lt.mpr h)
  refine ⟨?_, hV, ?_, ?_, ?_⟩ <;> unfold step <;> dsimp only <;> simp [href, hV]

/-- Witness for C2: fire at time 0 (refractory period 2), then probe at
time 1, inside the refractory window. -/
theorem neuron_refractory_gate_witness :
    List.Chain' (· ≤ ·) (([((5 : ℚ), (0 : ℚ))].map Prod.snd) ++ [(1 : ℚ)])
    ∧ (1 : ℚ) < (run (mkNeuron 1 1 2) [(5, 0)]).refractoryUntil
    ∧ (step (run (mkNeuron 1 1 2) [(5, 0)]) 0 1).2 = false := by
  have hch : List.Chain' (· ≤ ·) (([((5 : ℚ), (0 : ℚ))].map Prod.snd) ++ [(1 : ℚ)]) := by
    norm_num
  have href : (1 : ℚ) < (run (mkNeuron 1 1 2) [(5, 0)]).refractoryUntil := by
    norm_num [run, step, mkNeuron]
  exact ⟨hch, href, (neuron_refractory_gate 1 1 2 [(5, 0)] 0 1 hch href).1⟩

end NeuronTS

namespace GraphTS

/-- Consecutive differences of a strictly increasing list are positive. -/
lemma zipWith_sub_tail_pos (r : List ℚ) (hr : List.Sorted (· < ·) r) :
    ∀ x ∈ List.zipWith (fun a b => a - b) r.tail r, 0 < x := by
  induction r with
  | nil => simp
  | cons a r ih =>
    cases r with
    | nil => simp
    | cons b rest =>
      intro x hx
      rw [List.sorted_cons] at hr
      simp only [List.tail_cons, List.zipWith_cons_cons, List.mem_cons] at hx
      rcases hx with hx | hx
      · have hab : a < b := hr.1 b (by simp)
        simpa [hx] using sub_pos.mpr hab
      · exact ih hr.2 x (by simpa using hx)

/-- C8: on a strictly increasing spike history, the instantaneous
firing rate is 0 below two spikes and otherwise 1000 over the mean
inter-spike interval of the last up-to-10 spike times. -/
theorem firing_rate_spec (n : Neuron) (hs : List.Sorted (· < ·) n.spikeHistory) :
    getInstantaneousFiringRate n =
      if n.spikeHistory.length < 2 then 0
      else 1000 / meanISI (lastN n.spikeHistory 10) := by
  unfold getInstantaneousFiringRate
  by_cases h2 : n.spikeHistory.length < 2
  · simp [h2]
  · rw [if_neg h2, if_neg h2]
    have hlen : (lastN n.spikeHistory 10).length = min n.spikeHistory.length 10 := by
      simp only [lastN, List.length_drop]
      omega
    have hlen2 : 2 ≤ (lastN n.spikeHistory 10).length := by omega
    have hsorted : List.Sorted (· < ·) (lastN n.spikeHistory 10) :=
      List.Pairwise.sublist (List.drop_sublist _ _) hs
    have h2b : ¬ (lastN n.spikeHistory 10).length < 2 := by omega
    rw [if_neg h2b]
    have hintlen : (List.zipWith (fun a b => a - b) (lastN n.spikeHistory 10).tail
        (lastN n.spikeHistory 10)).length = (lastN n.spikeHistory 10).length - 1 := by
      rw [List.length_zipWith, List.length_tail]
      omega
    have hne : List.zipWith (fun a b => a - b) (lastN n.spikeHistory 10).tail
        (lastN n.spikeHistory 10) ≠ [] := by
      intro h
      rw [← List.length_eq_zero] at h
      omega
    have hsum : 0 < (List.zipWith (fun a b => a - b) (lastN n.spikeHistory 10).tail
        (lastN n.spikeHistory 10)).sum :=
      List.sum_pos _ (zipWith_sub_tail_pos _ hsorted) hne
    have havg : 0 < (List.zipWith (fun a b => a - b) (lastN n.spikeHistory 10).tail
        (lastN n.spikeHistory 10)).sum /
        ((List.zipWith (fun a b => a - b) (lastN n.spikeHistory 10).tail
          (lastN n.spikeHistory 10)).length : ℚ) := by
      apply div_pos hsum
      have : 0 < (List.zipWith (fun a b => a - b) (lastN n.spikeHistory 10).tail
          (lastN n.spikeHistory 10)).length := by omega
      exact_mod_cast this
    rw [if_pos havg]
    rfl

/-- Witness for C8 at a concrete two-spike history. -/
theorem firing_rate_spec_witness :
    List.Sorted (· < ·) ({ mkNeuron defaultConfig with spikeHistory := [0, 10] } : Neuron).spikeHistory
    ∧ getInstantaneousFiringRate ({ mkNeuron defaultConfig with spikeHistory := [0, 10] } : Neuron) =
      if ({ mkNeuron defaultConfig with spikeHistory := [0, 10] } : Neuron).spikeHistory.length < 2 then 0
      else 1000 / meanISI (lastN ({ mkNeuron defaultConfig with spikeHistory := [0, 10] } : Neuron).spikeHistory 10) := by
  have hs : List.Sorted (· < ·) ({ mkNeuron defaultConfig with spikeHistory := [0, 10] } : Neuron).spikeHistory := by
    norm_num [mkNeuron, List.sorted_cons]
  exact ⟨hs, firing_rate_spec _ hs⟩

end GraphTS

namespace NetTS

/-- C7: when homeostasis runs (the flag is set), every neuron whose
absolute rate error `d = targetFiringRate − instantaneousFiringRate`
exceeds 1 Hz gets its threshold moved by exactly `0.001·d` and clamped
into `[−60, −40]`; every other neuron is untouched. -/
theorem homeostasis_spec (net : Network) (hH : net.homeostasisEnabled = true) :
    (applyHomeostasis net).neurons.length = net.neurons.length
    ∧ ∀ (i : ℕ) (nrn : GraphTS.Neuron), net.neurons[i]? = some nrn →
        (applyHomeostasis net).neurons[i]? = some (
          if 1 < |net.targetFiringRate - GraphTS.getInstantaneousFiringRate nrn| then
            { nrn with config := { nrn.config with
                threshold := max (-60) (min (-40)
                  (nrn.config.threshold +
                    (net.targetFiringRate - GraphTS.getInstantaneousFiringRate nrn) * 0.001)) } }
          else nrn) := by
  unfold applyHomeostasis
  rw [hH]
  simp only [Bool.not_true, Bool.false_eq_true, if_false]
  constructor
  · exact List.length_map _ _
  · intro i nrn h
    rw [List.getElem?_map, h]
    rfl

/-- Witness for C7 on a one-neuron network with homeostasis enabled. -/
theorem homeostasis_spec_witness :
    (addNeuron mkNetwork GraphTS.defaultConfig).homeostasisEnabled = true
    ∧ (applyHomeostasis (addNeuron mkNetwork GraphTS.defaultConfig)).neurons.length =
        (addNeuron mkNetwork GraphTS.defaultConfig).neurons.length :=
  ⟨rfl, (homeostasis_spec (addNeuron mkNetwork GraphTS.defaultConfig) rfl).1⟩

/-- C6: after `reset()`, the clock is zero, the queue is empty, every
neuron is back at its resting potential with cleared statistics, and
every synapse (all histories being nonempty, as construction
guarantees) holds `weight = weightHistory[0]` with its history
truncated to exactly that one entry — so `weightHistory[0]` itself is
invariant under `reset()`. -/
theorem reset_spec (net : Network)
    (hhist : ∀ syn ∈ net.synapses, syn.weightHistory ≠ []) :
    (reset net).currentTime = 0
    ∧ (reset net).spikeQueue = []
    ∧ (∀ n ∈ (reset net).neurons, n.membranePotential = n.config.restingPotential
        ∧ n.totalSpikes = 0 ∧ n.spikeHistory = [])
    ∧ (∀ (i : ℕ) (syn : Synapse), net.synapses[i]? = some syn →
        ∃ w, syn.weightHistory.head? = some w ∧
          (reset net).synapses[i]? =
            some { syn with weight := w, weightHistory := [w] }) := by
  refine ⟨rfl, rfl, ?_, ?_⟩
  · intro n hn
    simp only [reset, List.mem_map] at hn
    obtain ⟨m, _, rfl⟩ := hn
    simp [GraphTS.reset]
  · intro i syn h
    have hmem : syn ∈ net.synapses := by
      obtain ⟨hi, rfl⟩ := List.getElem?_eq_some.mp h
      exact List.getElem_mem hi
    have hne := hhist syn hmem
    match hsyn : syn.weightHistory with
    | [] => exact absurd hsyn hne
    | w :: rest =>
      refine ⟨w, rfl, ?_⟩
      show (net.synapses.map _)[i]? = _
      rw [List.getElem?_map, h]
      simp [hsyn]

/-- Witness for C6 on a freshly constructed one-synapse network. -/
theorem reset_spec_witness :
    (∀ syn ∈ (addSynapse mkNetwork 0 1 1 2 defaultPlasticity "s0").synapses,
      syn.weightHistory ≠ [])
    ∧ (reset (addSynapse mkNetwork 0 1 1 2 defaultPlasticity "s0")).currentTime = 0 := by
  have hh : ∀ syn ∈ (addSynapse mkNetwork 0 1 1 2 defaultPlasticity "s0").synapses,
      syn.weightHistory ≠ [] := by
    intro syn hsyn
    simp only [addSynapse, mkNetwork, List.nil_append, List.mem_singleton] at hsyn
    subst hsyn
    simp
  exact ⟨hh, (reset_spec _ hh).1⟩

/-- Folding `acc + g x` over a list is the initial value plus the sum
of the images. -/
lemma foldl_add_eq_sum (l : List ℚ) (g : ℚ → ℚ) :
    ∀ acc : ℚ, l.foldl (fun a x => a + g x) acc = acc + (l.map g).sum := by
  induction l with
  | nil => intro acc; simp
  | cons x xs ih =>
    intro acc
    simp only [List.foldl_cons, List.map_cons, List.sum_cons, ih]
    ring

/-- Two folds agree when their step functions agree pointwise. -/
lemma foldl_fun_congr {α β : Type} (l : List β) (f g : α → β → α)
    (hfg : ∀ a x, f a x = g a x) : ∀ a : α, l.foldl f a = l.foldl g a := by
  induction l with
  | nil => intro a; rfl
  | cons x xs ih => intro a; simp only [List.foldl_cons, hfg, ih]

/-- The nested `forEach` accumulation in `applySTDP` computes the
spec's double sum. -/
lemma stdp_fold_eq (e : ℚ → ℚ) (p : Plasticity) (currentTime : ℚ)
    (preSpikes postSpikes : List ℚ) :
    (preSpikes.filter (fun t => decide (currentTime - 100 < t))).foldl (fun acc tPre =>
      (postSpikes.filter (fun t => decide (currentTime - 100 < t))).foldl (fun acc2 tPost =>
        if 0 < tPost - tPre then acc2 + p.aPlus * e (-(tPost - tPre) / p.tauPlus)
        else if tPost - tPre < 0 then acc2 - p.aMinus * e ((tPost - tPre) / p.tauMinus)
        else acc2) acc) 0
    = stdpDeltaSpec e p currentTime preSpikes postSpikes := by
  unfold stdpDeltaSpec
  have hinner : ∀ (tPre acc : ℚ),
      (postSpikes.filter (fun t => decide (currentTime - 100 < t))).foldl (fun acc2 tPost =>
        if 0 < tPost - tPre then acc2 + p.aPlus * e (-(tPost - tPre) / p.tauPlus)
        else if tPost - tPre < 0 then acc2 - p.aMinus * e ((tPost - tPre) / p.tauMinus)
        else acc2) acc
      = acc + ((postSpikes.filter (fun t => decide (currentTime - 100 < t))).map (fun tPost =>
          if 0 < tPost - tPre then p.aPlus * e (-(tPost - tPre) / p.tauPlus)
          else if tPost - tPre < 0 then -(p.aMinus * e ((tPost - tPre) / p.tauMinus))
          else 0)).sum := by
    intro tPre acc
    rw [← foldl_add_eq_sum]
    apply foldl_fun_congr
    intro a x
    split_ifs <;> ring
  rw [foldl_fun_congr _ _
    (fun acc tPre => acc + ((postSpikes.filter (fun t => decide (currentTime - 100 < t))).map
      (fun tPost =>
        if 0 < tPost - tPre then p.aPlus * e (-(tPost - tPre) / p.tauPlus)
        else if tPost - tPre < 0 then -(p.aMinus * e ((tPost - tPre) / p.tauMinus))
        else 0)).sum)
    (fun acc tPre => hinner tPre acc), foldl_add_eq_sum]
  simp

/-- C4: with both plasticity switches on, `applySTDP` adds the spec's
pairwise-sum weight change, clamps the result into `[0, 2]`, and
appends the new weight to `weightHistory` with `lastUpdate :=
currentTime` exactly when the weight moved by more than 0.001. -/
theorem applySTDP_spec (e : ℚ → ℚ) (currentTime : ℚ) (syn : Synapse)
    (preSpikes postSpikes : List ℚ) (hen : syn.plasticity.enabled = true) :
    applySTDP e true currentTime syn preSpikes postSpikes =
      if 0.001 < |max 0 (min 2 (syn.weight +
          stdpDeltaSpec e syn.plasticity currentTime preSpikes postSpikes)) - syn.weight| then
        { syn with
          weight := max 0 (min 2 (syn.weight +
            stdpDeltaSpec e syn.plasticity currentTime preSpikes postSpikes))
          weightHistory := pushBounded syn.weightHistory
            (max 0 (min 2 (syn.weight +
              stdpDeltaSpec e syn.plasticity currentTime preSpikes postSpikes))) 100
          lastUpdate := currentTime }
      else
        { syn with
          weight := max 0 (min 2 (syn.weight +
            stdpDeltaSpec e syn.plasticity currentTime preSpikes postSpikes)) } := by
  unfold applySTDP
  rw [hen]
  simp only [Bool.not_true, Bool.false_eq_true, Bool.not_false, Bool.false_or, if_false]
  rw [stdp_fold_eq]

/-- Witness for C4 at a concrete enabled synapse and one spike pair. -/
theorem applySTDP_spec_witness :
    synW.plasticity.enabled = true
    ∧ applySTDP (fun _ => 1) true 10 synW [0] [5] =
      if 0.001 < |max 0 (min 2 (synW.weight +
          stdpDeltaSpec (fun _ => 1) synW.plasticity 10 [0] [5])) - synW.weight| then
        { synW with
          weight := max 0 (min 2 (synW.weight +
            stdpDeltaSpec (fun _ => 1) synW.plasticity 10 [0] [5]))
          weightHistory := pushBounded synW.weightHistory
            (max 0 (min 2 (synW.weight +
              stdpDeltaSpec (fun _ => 1) synW.plasticity 10 [0] [5]))) 100
          lastUpdate := 10 }
      else
        { synW with
          weight := max 0 (min 2 (synW.weight +
            stdpDeltaSpec (fun _ => 1) synW.plasticity 10 [0] [5])) } :=
  ⟨rfl, applySTDP_spec (fun _ => 1) 10 synW [0] [5] rfl⟩

/-- When the global plasticity flag is off, `applySTDP` is the
identity. -/
lemma applySTDP_disabled (e : ℚ → ℚ) (currentTime : ℚ) (syn : Synapse)
    (preSpikes postSpikes : List ℚ) :
    applySTDP e false currentTime syn preSpikes postSpikes = syn := by
  unfold applySTDP
  simp

/-- `updateFirst` with a pointwise-identity mutation is the identity. -/
lemma updateFirst_id (l : List Synapse) (sid : String) (f : Synapse → Synapse)
    (hf : ∀ s, f s = s) : updateFirst l sid f = l := by
  induction l with
  | nil => rfl
  | cons s rest ih =>
    unfold updateFirst
    rw [hf s, ih]
    split <;> rfl

/-- With global plasticity off, the drain loop leaves the synapse list
untouched. -/
lemma stepSynapses_disabled (e : ℚ → ℚ) (net : Network)
    (hG : net.globalPlasticityEnabled = false) :
    stepSynapses e net = net.synapses := by
  unfold stepSynapses
  rw [hG]
  have : ∀ (l : List SpikeEvent) (syns : List Synapse),
      l.foldl (fun syns ev => updateFirst syns ev.synapseId
        (fun syn => applySTDP e false (net.currentTime + net.deltaTime) syn
          (histOf net.neurons ev.sourceNeuron) (histOf net.neurons ev.targetNeuron))) syns
      = syns := by
    intro l
    induction l with
    | nil => intro syns; rfl
    | cons ev evs ih =>
      intro syns
      simp only [List.foldl_cons]
      rw [updateFirst_id _ _ _ (fun s => applySTDP_disabled _ _ s _ _), ih]
  exact this _ _

lemma updateSynchronyIndex_synapses (net : Network) :
    (updateSynchronyIndex net).synapses = net.synapses := by
  unfold updateSynchronyIndex
  split <;> rfl

lemma updateSynchronyIndex_globalFlag (net : Network) :
    (updateSynchronyIndex net).globalPlasticityEnabled = net.globalPlasticityEnabled := by
  unfold updateSynchronyIndex
  split <;> rfl

lemma applyHomeostasis_synapses (net : Network) :
    (applyHomeostasis net).synapses = net.synapses := by
  unfold applyHomeostasis
  split <;> rfl

lemma applyHomeostasis_globalFlag (net : Network) :
    (applyHomeostasis net).globalPlasticityEnabled = net.globalPlasticityEnabled := by
  unfold applyHomeostasis
  split <;> rfl

/-- One `step` with global plasticity off: the synapse list is carried
over unchanged, and the flag itself is preserved. -/
lemma step_synapses_disabled (e : ℚ → ℚ) (net : Network)
    (hG : net.globalPlasticityEnabled = false) :
    (step e net).synapses = net.synapses
    ∧ (step e net).globalPlasticityEnabled = false := by
  unfold step
  dsimp only
  constructor
  · split
    · rw [applyHomeostasis_synapses, updateSynchronyIndex_synapses]
      exact stepSynapses_disabled e net hG
    · rw [updateSynchronyIndex_synapses]
      exact stepSynapses_disabled e net hG
  · split
    · rw [applyHomeostasis_globalFlag, updateSynchronyIndex_globalFlag]
      exact hG
    · rw [updateSynchronyIndex_globalFlag]
      exact hG

/-- C5: with `globalPlasticityEnabled = false`, any number of
`Network.step` invocations leaves every synapse — weight,
`weightHistory`, `lastUpdate` and all — unchanged. -/
theorem stdp_disabled_frame (e : ℚ → ℚ) (net : Network)
    (hG : net.globalPlasticityEnabled = false) (k : ℕ) :
    (stepIter e k net).synapses = net.synapses := by
  have main : ∀ m : ℕ, (stepIter e m net).synapses = net.synapses
      ∧ (stepIter e m net).globalPlasticityEnabled = false := by
    intro m
    induction m with
    | zero => exact ⟨rfl, hG⟩
    | succ m ih =>
      have h2 := step_synapses_disabled e (stepIter e m net) ih.2
      exact ⟨h2.1.trans ih.1, h2.2⟩
  exact (main k).1

/-- Witness for C5: three steps of a freshly built network (whose
constructor leaves plasticity off) with one synapse. -/
theorem stdp_disabled_frame_witness :
    (addSynapse (addNeuron mkNetwork GraphTS.defaultConfig) 0 0 1 2
        defaultPlasticity "s0").globalPlasticityEnabled = false
    ∧ (stepIter (fun _ => 1) 3 (addSynapse (addNeuron mkNetwork GraphTS.defaultConfig) 0 0 1 2
        defaultPlasticity "s0")).synapses =
      (addSynapse (addNeuron mkNetwork GraphTS.defaultConfig) 0 0 1 2
        defaultPlasticity "s0").synapses :=
  ⟨rfl, stdp_disabled_frame (fun _ => 1) _ rfl 3⟩

/-- Members of a bounded-push history are old members or the pushed
value. -/
lemma pushBounded_subset (l : List ℚ) (x : ℚ) (b : ℕ) :
    ∀ y ∈ pushBounded l x b, y ∈ l ∨ y = x := by
  intro y hy
  unfold pushBounded at hy
  dsimp only at hy
  split at hy
  · have : y ∈ l ++ [x] := List.mem_of_mem_tail hy
    simpa using this
  · simpa using hy

/-- `max 0 (min 2 x)` always lands in `[0, 2]`. -/
lemma clamp02_bounds (x : ℚ) : 0 ≤ max 0 (min 2 x) ∧ max 0 (min 2 x) ≤ 2 :=
  ⟨le_max_left _ _, max_le (by norm_num) (min_le_left _ _)⟩

/-- `applySTDP` preserves the `[0, 2]` bounds: either it returns the
synapse unchanged, or it clamps the new weight into `[0, 2]` and
appends only that clamped value to the history. -/
lemma applySTDP_synBounds (e : ℚ → ℚ) (g : Bool) (t : ℚ) (syn : Synapse)
    (pre post : List ℚ) (h : SynBounds syn) :
    SynBounds (applySTDP e g t syn pre post) := by
  unfold applySTDP
  split
  · exact h
  · dsimp only
    split
    · refine ⟨clamp02_bounds _, ?_⟩
      intro w hw
      rcases pushBounded_subset _ _ _ w hw with hw2 | hw2
      · exact h.2 w hw2
      · rw [hw2]; exact clamp02_bounds _
    · exact ⟨clamp02_bounds _, h.2⟩

/-- `updateFirst` preserves any pointwise property its mutation
preserves. -/
lemma updateFirst_forall (P : Synapse → Prop) (l : List Synapse) (sid : String)
    (f : Synapse → Synapse) (hl : ∀ s ∈ l, P s) (hf : ∀ s, P s → P (f s)) :
    ∀ s ∈ updateFirst l sid f, P s := by
  induction l with
  | nil => intro s hs; cases hs
  | cons a rest ih =>
    intro s hs
    unfold updateFirst at hs
    split at hs
    · rw [List.mem_cons] at hs
      rcases hs with hs | hs
      · rw [hs]; exact hf a (hl a (by simp))
      · exact hl s (List.mem_cons_of_mem _ hs)
    · rw [List.mem_cons] at hs
      rcases hs with hs | hs
      · exact hl s (by rw [hs]; simp)
      · exact ih (fun x hx => hl x (List.mem_cons_of_mem _ hx)) s hs

/-- The drain loop's synapse fold preserves the bounds. -/
lemma stepSynapses_weightInv (e : ℚ → ℚ) (net : Network) (h : WeightInv net) :
    ∀ s ∈ stepSynapses e net, SynBounds s := by
  unfold stepSynapses
  have main : ∀ (l : List SpikeEvent) (syns : List Synapse), (∀ s ∈ syns, SynBounds s) →
      ∀ s ∈ l.foldl (fun syns ev => updateFirst syns ev.synapseId
        (fun syn => applySTDP e net.globalPlasticityEnabled (net.currentTime + net.deltaTime) syn
          (histOf net.neurons ev.sourceNeuron) (histOf net.neurons ev.targetNeuron))) syns,
        SynBounds s := by
    intro l
    induction l with
    | nil => intro syns hsyns; exact hsyns
    | cons ev evs ih =>
      intro syns hsyns
      simp only [List.foldl_cons]
      exact ih _ (updateFirst_forall _ _ _ _ hsyns
        (fun s hs => applySTDP_synBounds _ _ _ s _ _ hs))
  exact main _ _ h

/-- `step` carries exactly the drained synapse list into the new
state. -/
lemma step_synapses (e : ℚ → ℚ) (net : Network) :
    (step e net).synapses = stepSynapses e net := by
  unfold step
  dsimp only
  split
  · rw [applyHomeostasis_synapses, updateSynchronyIndex_synapses]
  · rw [updateSynchronyIndex_synapses]

/-- One `Network.step` preserves the weight-bound invariant. -/
lemma step_weightInv (e : ℚ → ℚ) (net : Network) (h : WeightInv net) :
    WeightInv (step e net) := by
  intro s hs
  rw [step_synapses] at hs
  exact stepSynapses_weightInv e net h s hs

/-- `Network.reset` preserves the weight-bound invariant: the restored
weight is the history head, itself a recorded (hence bounded) value. -/
lemma reset_weightInv (net : Network) (h : WeightInv net) :
    WeightInv (reset net) := by
  intro s hs
  simp only [reset, List.mem_map] at hs
  obtain ⟨syn, hsyn, rfl⟩ := hs
  have hb := h syn hsyn
  match hh : syn.weightHistory with
  | [] => simpa [hh] using hb
  | w :: rest =>
    have hw : 0 ≤ w ∧ w ≤ 2 := hb.2 w (by rw [hh]; simp)
    simp only [hh]
    exact ⟨hw, by intro x hx; simp only [List.mem_singleton] at hx; rw [hx]; exact hw⟩

/-- C3: starting from any state satisfying the `[0, 2]` bound (in
particular a fresh network), any sequence of `step`, `reset`,
`addNeuron`, and in-bounds `addSynapse` operations keeps every synapse
weight (and every recorded history entry) in `[0, 2]`. -/
theorem weight_bounds_invariant (e : ℚ → ℚ) (net : Network) (ops : List NetOp)
    (hinv : WeightInv net) (hops : ∀ op ∈ ops, opWeightOK op) :
    WeightInv (runOps e net ops) := by
  induction ops generalizing net with
  | nil => exact hinv
  | cons op ops ih =>
    have hop := hops op (by simp)
    have hstep : WeightInv (applyOp e net op) := by
      cases op with
      | step => exact step_weightInv e net hinv
      | reset => exact reset_weightInv net hinv
      | addNeuron config => exact fun s hs => hinv s hs
      | addSynapse f t w d p i =>
        intro s hs
        simp only [applyOp, addSynapse, List.mem_append, List.mem_singleton] at hs
        rcases hs with hs | hs
        · exact hinv s hs
        · rw [hs]
          exact ⟨hop, by intro x hx; simp only [List.mem_singleton] at hx; rw [hx]; exact hop⟩
    exact ih (applyOp e net op) hstep (fun o ho => hops o (by simp [ho]))

/-- Witness for C3: an in-bounds `addSynapse` followed by a `step` on a
fresh network. -/
theorem weight_bounds_invariant_witness :
    WeightInv mkNetwork
    ∧ (∀ op ∈ [NetOp.addSynapse 0 1 1 2 defaultPlasticity "s0", NetOp.step], opWeightOK op)
    ∧ WeightInv (runOps (fun _ => 1) mkNetwork
        [NetOp.addSynapse 0 1 1 2 defaultPlasticity "s0", NetOp.step]) := by
  have h1 : WeightInv mkNetwork := by
    intro syn hsyn
    simp [mkNetwork] at hsyn
  have h2 : ∀ op ∈ [NetOp.addSynapse 0 1 1 2 defaultPlasticity "s0", NetOp.step],
      opWeightOK op := by
    intro op hop
    simp only [List.mem_cons, List.mem_singleton, List.not_mem_nil, or_false] at hop
    rcases hop with rfl | rfl
    · norm_num [opWeightOK]
    · exact trivial
  exact ⟨h1, h2, weight_bounds_invariant _ _ _ h1 h2⟩

/-- C10: `getNetworkStats` guards none of its divisions.  With zero
neurons `avgFiringRate` is `0/0 = NaN`; with at most one neuron the
`connectivity` denominator `N·(N−1)` is zero, so connectivity is a
division by zero; with zero synapses `avgWeight` is `0/0 = NaN`.  The
stats record is still returned (the function is total) — no error is
raised. -/
theorem stats_division_by_zero (net : Network) :
    (net.neurons = [] → (getNetworkStats net).avgFiringRate = JS.JSNum.nan)
    ∧ (net.neurons.length ≤ 1 → (getNetworkStats net).connectivity =
        JS.jsDiv (JS.JSNum.num (net.synapses.length : ℚ)) (JS.JSNum.num 0))
    ∧ (net.synapses = [] → (getNetworkStats net).avgWeight = JS.JSNum.nan) := by
  refine ⟨?_, ?_, ?_⟩
  · intro h
    simp [getNetworkStats, h, JS.jsDiv]
  · intro h
    have hz : (net.neurons.length : ℚ) * ((net.neurons.length : ℚ) - 1) = 0 := by
      rcases Nat.le_one_iff_eq_zero_or_eq_one.mp h with h0 | h1
      · rw [h0]; norm_num
      · rw [h1]; norm_num
    simp only [getNetworkStats, hz]
  · intro h
    simp [getNetworkStats, h, JS.jsDiv]

/-- Witness for C10 at the empty network. -/
theorem stats_division_by_zero_witness :
    mkNetwork.neurons = []
    ∧ mkNetwork.neurons.length ≤ 1
    ∧ mkNetwork.synapses = []
    ∧ (getNetworkStats mkNetwork).avgFiringRate = JS.JSNum.nan
    ∧ (getNetworkStats mkNetwork).connectivity =
        JS.jsDiv (JS.JSNum.num (mkNetwork.synapses.length : ℚ)) (JS.JSNum.num 0)
    ∧ (getNetworkStats mkNetwork).avgWeight = JS.JSNum.nan :=
  ⟨rfl, by norm_num [mkNetwork],
    rfl,
    (stats_division_by_zero mkNetwork).1 rfl,
    (stats_division_by_zero mkNetwork).2.1 (by norm_num [mkNetwork]),
    (stats_division_by_zero mkNetwork).2.2 rfl⟩

lemma updateSynchronyIndex_currentTime (net : Network) :
    (updateSynchronyIndex net).currentTime = net.currentTime := by
  unfold updateSynchronyIndex; split <;> rfl

lemma updateSynchronyIndex_deltaTime (net : Network) :
    (updateSynchronyIndex net).deltaTime = net.deltaTime := by
  unfold updateSynchronyIndex; split <;> rfl

lemma updateSynchronyIndex_spikeQueue (net : Network) :
    (updateSynchronyIndex net).spikeQueue = net.spikeQueue := by
  unfold updateSynchronyIndex; split <;> rfl

lemma updateSynchronyIndex_neurons (net : Network) :
    (updateSynchronyIndex net).neurons = net.neurons := by
  unfold updateSynchronyIndex; split <;> rfl

lemma applyHomeostasis_currentTime (net : Network) :
    (applyHomeostasis net).currentTime = net.currentTime := by
  unfold applyHomeostasis; split <;> rfl

lemma applyHomeostasis_deltaTime (net : Network) :
    (applyHomeostasis net).deltaTime = net.deltaTime := by
  unfold applyHomeostasis; split <;> rfl

lemma applyHomeostasis_spikeQueue (net : Network) :
    (applyHomeostasis net).spikeQueue = net.spikeQueue := by
  unfold applyHomeostasis; split <;> rfl

lemma applyHomeostasis_neurons_length (net : Network) :
    (applyHomeostasis net).neurons.length = net.neurons.length := by
  unfold applyHomeostasis
  split
  · rfl
  · exact List.length_map _ _

/-- `Network.step` advances the clock by exactly `deltaTime`. -/
lemma step_currentTime (e : ℚ → ℚ) (net : Network) :
    (step e net).currentTime = net.currentTime + net.deltaTime := by
  unfold step
  dsimp only
  split
  · rw [applyHomeostasis_currentTime, updateSynchronyIndex_currentTime]
  · rw [updateSynchronyIndex_currentTime]

lemma step_deltaTime (e : ℚ → ℚ) (net : Network) :
    (step e net).deltaTime = net.deltaTime := by
  unfold step
  dsimp only
  split
  · rw [applyHomeostasis_deltaTime, updateSynchronyIndex_deltaTime]
  · rw [updateSynchronyIndex_deltaTime]

/-- The queue after one `step`: the retained old events followed by the
newly emitted ones. -/
lemma step_spikeQueue (e : ℚ → ℚ) (net : Network) :
    (step e net).spikeQueue = stepRemaining net ++ stepNewEvents e net := by
  unfold step
  dsimp only
  split
  · rw [applyHomeostasis_spikeQueue, updateSynchronyIndex_spikeQueue]; rfl
  · rw [updateSynchronyIndex_spikeQueue]; rfl

lemma neuronLoop_length (e : ℚ → ℚ) (dt t : ℚ) (syns : List Synapse) (inputs : List ℚ) :
    ∀ (ns : List GraphTS.Neuron) (i : ℕ),
      (neuronLoop e dt t syns inputs ns i).1.length = ns.length := by
  intro ns
  induction ns with
  | nil => intro i; rfl
  | cons nrn rest ih =>
    intro i
    unfold neuronLoop
    dsimp only
    split <;> simp [ih]

lemma step_neurons_length (e : ℚ → ℚ) (net : Network) :
    (step e net).neurons.length = net.neurons.length := by
  unfold step
  dsimp only
  split
  · rw [applyHomeostasis_neurons_length, updateSynchronyIndex_neurons]
    exact neuronLoop_length _ _ _ _ _ _ _
  · rw [updateSynchronyIndex_neurons]
    exact neuronLoop_length _ _ _ _ _ _ _

lemma mem_stepDelivered {net : Network} {ev : SpikeEvent} :
    ev ∈ stepDelivered net ↔
      ev ∈ net.spikeQueue ∧ ev.arrivalTime ≤ net.currentTime + net.deltaTime := by
  unfold stepDelivered
  rw [List.mem_filter]
  simp

lemma mem_stepRemaining {net : Network} {ev : SpikeEvent} :
    ev ∈ stepRemaining net ↔
      ev ∈ net.spikeQueue ∧ ¬ ev.arrivalTime ≤ net.currentTime + net.deltaTime := by
  unfold stepRemaining
  rw [List.mem_filter]
  simp

lemma count_stepDelivered_of_due (net : Network) (ev : SpikeEvent)
    (h : ev.arrivalTime ≤ net.currentTime + net.deltaTime) :
    (stepDelivered net).count ev = net.spikeQueue.count ev :=
  List.count_filter (by simp [h])

lemma count_stepRemaining_of_notdue (net : Network) (ev : SpikeEvent)
    (h : ¬ ev.arrivalTime ≤ net.currentTime + net.deltaTime) :
    (stepRemaining net).count ev = net.spikeQueue.count ev :=
  List.count_filter (by simp [h])

/-- A due event never survives into the retained queue. -/
lemma not_mem_stepRemaining_of_due (net : Network) (ev : SpikeEvent)
    (h : ev.arrivalTime ≤ net.currentTime + net.deltaTime) :
    ev ∉ stepRemaining net := by
  intro hmem
  exact (mem_stepRemaining.mp hmem).2 h

lemma applySTDP_delay (e : ℚ → ℚ) (g : Bool) (t : ℚ) (syn : Synapse)
    (pre post : List ℚ) : (applySTDP e g t syn pre post).delay = syn.delay := by
  unfold applySTDP
  split
  · rfl
  · dsimp only
    split <;> rfl

/-- The drain loop preserves any pointwise synapse property that
`applySTDP` preserves. -/
lemma stepSynapses_forall (P : Synapse → Prop) (e : ℚ → ℚ) (net : Network)
    (h : ∀ s ∈ net.synapses, P s)
    (hpres : ∀ (ev : SpikeEvent) (s : Synapse), P s →
      P (applySTDP e net.globalPlasticityEnabled (net.currentTime + net.deltaTime) s
        (histOf net.neurons ev.sourceNeuron) (histOf net.neurons ev.targetNeuron))) :
    ∀ s ∈ stepSynapses e net, P s := by
  unfold stepSynapses
  have main : ∀ (l : List SpikeEvent) (syns : List Synapse), (∀ s ∈ syns, P s) →
      ∀ s ∈ l.foldl (fun syns ev => updateFirst syns ev.synapseId
        (fun syn => applySTDP e net.globalPlasticityEnabled (net.currentTime + net.deltaTime) syn
          (histOf net.neurons ev.sourceNeuron) (histOf net.neurons ev.targetNeuron))) syns,
        P s := by
    intro l
    induction l with
    | nil => intro syns hsyns; exact hsyns
    | cons ev evs ih =>
      intro syns hsyns
      simp only [List.foldl_cons]
      exact ih _ (updateFirst_forall _ _ _ _ hsyns (fun s hs => hpres ev s hs))
  exact main _ _ h

lemma stepSynapses_delaysPos (e : ℚ → ℚ) (net : Network)
    (h : ∀ s ∈ net.synapses, 0 < s.delay) :
    ∀ s ∈ stepSynapses e net, 0 < s.delay :=
  stepSynapses_forall _ e net h (fun ev s hs => by rw [applySTDP_delay]; exact hs)

lemma step_delaysPos (e : ℚ → ℚ) (net : Network)
    (h : ∀ s ∈ net.synapses, 0 < s.delay) :
    ∀ s ∈ (step e net).synapses, 0 < s.delay := by
  rw [step_synapses]
  exact stepSynapses_delaysPos e net h

lemma stepIter_delaysPos (e : ℚ → ℚ) (net : Network)
    (h : ∀ s ∈ net.synapses, 0 < s.delay) :
    ∀ k, ∀ s ∈ (stepIter e k net).synapses, 0 < s.delay := by
  intro k
  induction k with
  | zero => exact h
  | succ k ih => exact step_delaysPos e (stepIter e k net) ih

/-- Every event the neuron loop emits carries `arrivalTime = t +
synapse.delay` for some synapse of the list it was given. -/
lemma neuronLoop_events_arrival (e : ℚ → ℚ) (dt t : ℚ) (syns : List Synapse)
    (inputs : List ℚ) :
    ∀ (ns : List GraphTS.Neuron) (i : ℕ) (ev : SpikeEvent),
      ev ∈ (neuronLoop e dt t syns inputs ns i).2.1 →
      ∃ syn ∈ syns, ev.arrivalTime = t + syn.delay := by
  intro ns
  induction ns with
  | nil => intro i ev h; cases h
  | cons nrn rest ih =>
    intro i ev h
    unfold neuronLoop at h
    dsimp only at h
    split at h
    · rw [List.mem_append] at h
      rcases h with h | h
      · obtain ⟨syn, hsyn, rfl⟩ := List.mem_map.mp h
        exact ⟨syn, (List.mem_filter.mp hsyn).1, rfl⟩
      · exact ih (i + 1) ev h
    · exact ih (i + 1) ev h

/-- With positive delays, every newly emitted event arrives strictly
after the step that emitted it. -/
lemma stepNewEvents_arrival (e : ℚ → ℚ) (net : Network)
    (hd : ∀ s ∈ net.synapses, 0 < s.delay) :
    ∀ ev ∈ stepNewEvents e net,
      net.currentTime + net.deltaTime < ev.arrivalTime := by
  intro ev h
  obtain ⟨syn, hsyn, harr⟩ :=
    neuronLoop_events_arrival e net.deltaTime (net.currentTime + net.deltaTime)
      (stepSynapses e net) (stepInputs net) net.neurons 0 ev h
  have hdl : 0 < syn.delay := stepSynapses_delaysPos e net hd syn hsyn
  rw [harr]
  linarith

lemma stepIter_deltaTime (e : ℚ → ℚ) (net : Network) (k : ℕ) :
    (stepIter e k net).deltaTime = net.deltaTime := by
  induction k with
  | zero => rfl
  | succ k ih =>
    show (step e (stepIter e k net)).deltaTime = _
    rw [step_deltaTime, ih]

lemma stepIter_currentTime (e : ℚ → ℚ) (net : Network) (k : ℕ) :
    (stepIter e k net).currentTime = net.currentTime + k * net.deltaTime := by
  induction k with
  | zero => simp [stepIter]
  | succ k ih =>
    show (step e (stepIter e k net)).currentTime = _
    rw [step_currentTime, ih, stepIter_deltaTime]
    push_cast
    ring

lemma stepIter_currentTime_mono (e : ℚ → ℚ) (net : Network)
    (hdt : 0 < net.deltaTime) {j k : ℕ} (h : j ≤ k) :
    (stepIter e j net).currentTime ≤ (stepIter e k net).currentTime := by
  rw [stepIter_currentTime, stepIter_currentTime]
  have hjk : (j : ℚ) ≤ (k : ℚ) := by exact_mod_cast h
  nlinarith

lemma stepIter_neurons_length (e : ℚ → ℚ) (net : Network) (k : ℕ) :
    (stepIter e k net).neurons.length = net.neurons.length := by
  induction k with
  | zero => rfl
  | succ k ih =>
    show (step e (stepIter e k net)).neurons.length = _
    rw [step_neurons_length, ih]

/-- A pending (not-yet-due) event is never lost by a step. -/
lemma step_count_ge (e : ℚ → ℚ) (net : Network) (ev : SpikeEvent)
    (h : ¬ ev.arrivalTime ≤ net.currentTime + net.deltaTime) :
    net.spikeQueue.count ev ≤ (step e net).spikeQueue.count ev := by
  rw [step_spikeQueue, List.count_append, count_stepRemaining_of_notdue net ev h]
  exact Nat.le_add_right _ _

/-- The drain loop's `inputs[target] += weight` accumulation: entry `i`
of the result is the start value plus the summed weights of the events
targeting `i`. -/
lemma foldl_set_getD (l : List SpikeEvent) :
    ∀ (v : List ℚ) (i : ℕ), i < v.length →
      (l.foldl (fun inputs ev =>
        inputs.set ev.targetNeuron (inputs.getD ev.targetNeuron 0 + ev.weight)) v).getD i 0
      = v.getD i 0 +
        ((l.filter (fun ev => decide (ev.targetNeuron = i))).map SpikeEvent.weight).sum := by
  induction l with
  | nil => intro v i hi; simp
  | cons ev evs ih =>
    intro v i hi
    simp only [List.foldl_cons, List.filter_cons]
    by_cases heq : ev.targetNeuron = i
    · rw [ih _ i (by rw [List.length_set]; exact hi)]
      have hset : (v.set ev.targetNeuron (v.getD ev.targetNeuron 0 + ev.weight)).getD i 0
          = v.getD i 0 + ev.weight := by
        rw [List.getD_eq_getElem?_getD, List.getElem?_set, heq]
        simp [hi, List.getD_eq_getElem?_getD]
      rw [hset]
      simp only [heq, decide_True, if_true, List.map_cons, List.sum_cons]
      ring
    · rw [ih _ i (by rw [List.length_set]; exact hi)]
      have hset : (v.set ev.targetNeuron (v.getD ev.targetNeuron 0 + ev.weight)).getD i 0
          = v.getD i 0 := by
        rw [List.getD_eq_getElem?_getD, List.getElem?_set, if_neg heq,
          ← List.getD_eq_getElem?_getD]
      rw [hset]
      simp [heq]

/-- Entry `i` of the step's input vector is the summed weights of this
step's delivered events that target neuron `i`. -/
lemma stepInputs_getD (net : Network) (i : ℕ) (hi : i < net.neurons.length) :
    (stepInputs net).getD i 0 =
      (((stepDelivered net).filter (fun ev => decide (ev.targetNeuron = i))).map
        SpikeEvent.weight).sum := by
  unfold stepInputs
  rw [foldl_set_getD _ _ _ (by simpa using hi)]
  simp [List.getD_eq_getElem?_getD, List.getElem?_replicate, hi]

/-- C1: an in-flight event `ev` with a future `arrivalTime`, in a state
whose synapse delays are positive, is retained across every step whose
advanced clock still precedes `arrivalTime`, is never delivered at such
a step (delivery forces `arrivalTime ≤ currentTime`), is delivered at
the first step whose advanced `currentTime ≥ arrivalTime` — all queued
copies at once, its weight entering `inputs[targetNeuron]` — and is
neither in the queue nor delivered at any later step. -/
theorem spike_delivery_exactly_once (e : ℚ → ℚ) (net : Network) (ev : SpikeEvent)
    (n : ℕ)
    (hdt : 0 < net.deltaTime)
    (hdel : ∀ syn ∈ net.synapses, 0 < syn.delay)
    (hq : ev ∈ net.spikeQueue)
    (htgt : ev.targetNeuron < net.neurons.length)
    (hn : (stepIter e n net).currentTime < ev.arrivalTime)
    (hn1 : ev.arrivalTime ≤ (stepIter e (n + 1) net).currentTime) :
    (∀ k, ev ∈ stepDelivered (stepIter e k net) →
        ev.arrivalTime ≤ (stepIter e (k + 1) net).currentTime)
    ∧ (∀ k, k ≤ n →
        net.spikeQueue.count ev ≤ (stepIter e k net).spikeQueue.count ev)
    ∧ (∀ k, k < n → ev ∉ stepDelivered (stepIter e k net))
    ∧ ev ∈ stepDelivered (stepIter e n net)
    ∧ (stepDelivered (stepIter e n net)).count ev =
        (stepIter e n net).spikeQueue.count ev
    ∧ (stepInputs (stepIter e n net)).getD ev.targetNeuron 0 =
        (((stepDelivered (stepIter e n net)).filter
          (fun x => decide (x.targetNeuron = ev.targetNeuron))).map
            SpikeEvent.weight).sum
    ∧ (∀ m, n < m → ev ∉ (stepIter e m net).spikeQueue)
    ∧ (∀ m, n < m → ev ∉ stepDelivered (stepIter e m net)) := by
  have hdtI : ∀ k, (stepIter e k net).deltaTime = net.deltaTime :=
    fun k => stepIter_deltaTime e net k
  have hTsucc : ∀ k, (stepIter e (k + 1) net).currentTime =
      (stepIter e k net).currentTime + net.deltaTime := by
    intro k
    show (step e (stepIter e k net)).currentTime = _
    rw [step_currentTime, hdtI]
  have part1 : ∀ k, ev ∈ stepDelivered (stepIter e k net) →
      ev.arrivalTime ≤ (stepIter e (k + 1) net).currentTime := by
    intro k hk
    have h2 := (mem_stepDelivered.mp hk).2
    rw [hdtI k] at h2
    rw [hTsucc k]
    exact h2
  have part2 : ∀ k, k ≤ n →
      net.spikeQueue.count ev ≤ (stepIter e k net).spikeQueue.count ev := by
    intro k
    induction k with
    | zero => intro _; exact le_rfl
    | succ k ih =>
      intro hk
      have hprev := ih (Nat.le_of_succ_le hk)
      have hnotdue : ¬ ev.arrivalTime ≤
          (stepIter e k net).currentTime + (stepIter e k net).deltaTime := by
        rw [hdtI k, ← hTsucc k]
        intro hcon
        have hmono : (stepIter e (k + 1) net).currentTime ≤
            (stepIter e n net).currentTime :=
          stepIter_currentTime_mono e net hdt hk
        linarith
      exact hprev.trans (step_count_ge e (stepIter e k net) ev hnotdue)
  have part3 : ∀ k, k < n → ev ∉ stepDelivered (stepIter e k net) := by
    intro k hk hmem
    have h1 := part1 k hmem
    have h2 : (stepIter e (k + 1) net).currentTime ≤ (stepIter e n net).currentTime :=
      stepIter_currentTime_mono e net hdt (Nat.succ_le_of_lt hk)
    linarith
  have hdue : ev.arrivalTime ≤
      (stepIter e n net).currentTime + (stepIter e n net).deltaTime := by
    rw [hdtI, ← hTsucc n]
    exact hn1
  have part4 : ev ∈ stepDelivered (stepIter e n net) := by
    refine mem_stepDelivered.mpr ⟨?_, hdue⟩
    have hpos : 0 < net.spikeQueue.count ev := List.count_pos_iff.mpr hq
    exact List.count_pos_iff.mp (lt_of_lt_of_le hpos (part2 n le_rfl))
  have part5 := count_stepDelivered_of_due (stepIter e n net) ev hdue
  have part6 := stepInputs_getD (stepIter e n net) ev.targetNeuron
    (by rw [stepIter_neurons_length]; exact htgt)
  have hdelI := stepIter_delaysPos e net hdel
  have part7 : ∀ m, n < m → ev ∉ (stepIter e m net).spikeQueue := by
    intro m
    induction m with
    | zero => intro hm; cases hm
    | succ m ih =>
      intro hm
      rcases Nat.lt_succ_iff_lt_or_eq.mp hm with hm2 | hm2
      · -- inductive case: already absent at m, and later emissions arrive too late
        have hprev := ih hm2
        show ev ∉ (step e (stepIter e m net)).spikeQueue
        rw [step_spikeQueue, List.mem_append]
        rintro (hmem | hmem)
        · exact hprev (mem_stepRemaining.mp hmem).1
        · have harr := stepNewEvents_arrival e (stepIter e m net) (hdelI m) ev hmem
          rw [hdtI m, ← hTsucc m] at harr
          have hmono : (stepIter e (n + 1) net).currentTime ≤
              (stepIter e (m + 1) net).currentTime :=
            stepIter_currentTime_mono e net hdt (Nat.succ_le_succ (Nat.le_of_lt hm2))
          linarith
      · -- first step past the delivery: all copies were drained and new
        -- emissions arrive strictly later
        subst hm2
        show ev ∉ (step e (stepIter e n net)).spikeQueue
        rw [step_spikeQueue, List.mem_append]
        rintro (hmem | hmem)
        · exact not_mem_stepRemaining_of_due _ ev hdue hmem
        · have harr := stepNewEvents_arrival e (stepIter e n net) (hdelI n) ev hmem
          linarith
  have part8 : ∀ m, n < m → ev ∉ stepDelivered (stepIter e m net) := by
    intro m hm hmem
    exact part7 m hm (mem_stepDelivered.mp hmem).1
  exact ⟨part1, part2, part3, part4, part5, part6, part7, part8⟩

/-- Witness for C1: one queued event with `arrivalTime = 2` in a
one-neuron network with `deltaTime = 1`; it is delivered at the second
step, the first whose clock reaches 2. -/
theorem spike_delivery_exactly_once_witness :
    (0 : ℚ) < netW.deltaTime
    ∧ (∀ syn ∈ netW.synapses, 0 < syn.delay)
    ∧ evW ∈ netW.spikeQueue
    ∧ evW.targetNeuron < netW.neurons.length
    ∧ (stepIter expOne 1 netW).currentTime < evW.arrivalTime
    ∧ evW.arrivalTime ≤ (stepIter expOne 2 netW).currentTime
    ∧ evW ∈ stepDelivered (stepIter expOne 1 netW) := by
  have h1 : (0 : ℚ) < netW.deltaTime := by norm_num [netW]
  have h2 : ∀ syn ∈ netW.synapses, 0 < syn.delay := by
    intro syn h
    simp [netW] at h
  have h3 : evW ∈ netW.spikeQueue := by simp [netW]
  have h4 : evW.targetNeuron < netW.neurons.length := by simp [netW, evW]
  have h5 : (stepIter expOne 1 netW).currentTime < evW.arrivalTime := by
    rw [stepIter_currentTime]
    norm_num [netW, evW]
  have h6 : evW.arrivalTime ≤ (stepIter expOne 2 netW).currentTime := by
    rw [stepIter_currentTime]
    norm_num [netW, evW]
  exact ⟨h1, h2, h3, h4, h5, h6,
    (spike_delivery_exactly_once expOne netW evW 1 h1 h2 h3 h4 h5 h6).2.2.2.1⟩

end NetTS

end NSim
